import Mathlib

/-!
Verification of the delegation pipeline of the mcp-external-expert-server
repository.  Strings are modelled as `List Char`; the pure text-processing
functions of `src/utils/text-processing.ts`, the request preparation of
`src/core/delegate.ts`, the URL construction and response handling of
`src/providers/openai.ts` and the tool-call handler of
`src/handlers/mcp-handlers.ts` are embedded as executable Lean functions.
The regex-based replacements are embedded as explicit left-to-right
scanners with the exact greedy semantics of the JavaScript patterns.
-/

/-- Character class `[a-zA-Z0-9]` of the secret-redaction regexes. -/
def isAlnum (c : Char) : Bool :=
  ('a' ≤ c && c ≤ 'z') || ('A' ≤ c && c ≤ 'Z') || ('0' ≤ c && c ≤ '9')

/-- Character class `[a-zA-Z0-9\-_]` used for Bearer tokens and api keys. -/
def isTokenChar (c : Char) : Bool :=
  isAlnum c || c = '-' || c = '_'

/-- JavaScript `\s` (the whitespace characters recognised by the regexes
and by `String.prototype.trim`). -/
def isWsChar (c : Char) : Bool :=
  c = ' ' || c = '\t' || c = '\n' || c = '\r' || c = '\x0b' || c = '\x0c' ||
  c = '\u00A0' || c = '\u1680' || ('\u2000' ≤ c && c ≤ '\u200A') ||
  c = '\u2028' || c = '\u2029' || c = '\u202F' || c = '\u205F' ||
  c = '\u3000' || c = '\uFEFF'

/-- Length of the maximal alphanumeric prefix of a character list. -/
def alnumRun (l : List Char) : Nat := (l.takeWhile isAlnum).length

/-- Lower-casing of ASCII letters, for the case-insensitive regex flags. -/
def lowerChar (c : Char) : Char :=
  if 'A' ≤ c && c ≤ 'Z' then Char.ofNat (c.toNat + 32) else c

/-- `trim` of JavaScript: strip whitespace from both ends. -/
def jsTrim (l : List Char) : List Char :=
  ((l.dropWhile isWsChar).reverse.dropWhile isWsChar).reverse

/-- The fixed truncation marker appended by `clampText`. -/
def truncMarker : List Char := "\n\n[Truncated...]".toList

/-- `clampText` of `src/utils/text-processing.ts`: identity when the text
fits, otherwise the first `maxChars` characters followed by the marker. -/
def clampText (text : List Char) (maxChars : Nat) : List Char :=
  if text.length ≤ maxChars then text else text.take maxChars ++ truncMarker

/-- Basic simp lemma: `alnumRun` on a cons cell. -/
theorem alnumRun_cons (c : Char) (t : List Char) :
    alnumRun (c :: t) = if isAlnum c then alnumRun t + 1 else 0 := by
  by_cases h : isAlnum c <;>
    simp [alnumRun, List.takeWhile_cons, h]

/-- `clampText` is the identity on texts within the bound. -/
theorem clampText_eq_of_le (text : List Char) (maxChars : Nat)
    (h : text.length ≤ maxChars) : clampText text maxChars = text := by
  simp [clampText, h]

/-- Length of a truncated `clampText` result. -/
theorem clampText_length_of_lt (text : List Char) (maxChars : Nat)
    (h : maxChars < text.length) :
    (clampText text maxChars).length = maxChars + truncMarker.length := by
  have hle : ¬ text.length ≤ maxChars := by omega
  have htake : (text.take maxChars).length = maxChars := by
    simp [List.length_take]
    omega
  simp [clampText, hle, htake]

/-- A truncated `clampText` result starts with the clamped prefix. -/
theorem clampText_take_of_lt (text : List Char) (maxChars : Nat)
    (h : maxChars < text.length) :
    (clampText text maxChars).take maxChars = text.take maxChars := by
  have hle : ¬ text.length ≤ maxChars := by omega
  have htake : (text.take maxChars).length = maxChars := by
    simp [List.length_take]
    omega
  simp only [clampText, hle, if_false]
  rw [List.take_append_of_le_length (by omega), List.take_take]
  simp

/-- C9: `clampText` is the identity on texts that fit; on longer texts the
result has length `maxChars` plus the marker length and starts with the
first `maxChars` characters of the input. -/
theorem clampText_spec (text : List Char) (maxChars : Nat) :
    (text.length ≤ maxChars → clampText text maxChars = text) ∧
    (maxChars < text.length →
      (clampText text maxChars).length = maxChars + truncMarker.length ∧
      (clampText text maxChars).take maxChars = text.take maxChars) :=
  ⟨clampText_eq_of_le text maxChars,
   fun h => ⟨clampText_length_of_lt text maxChars h, clampText_take_of_lt text maxChars h⟩⟩

/-- Witness for C9 at a concrete input. -/
theorem clampText_spec_witness :
    clampText "ab".toList 5 = "ab".toList ∧
    (clampText "abcdef".toList 3).length = 3 + truncMarker.length ∧
    (clampText "abcdef".toList 3).take 3 = "abcdef".toList.take 3 := by
  refine ⟨(clampText_spec "ab".toList 5).1 (by decide), ?_, ?_⟩
  · exact ((clampText_spec "abcdef".toList 3).2 (by decide)).1
  · exact ((clampText_spec "abcdef".toList 3).2 (by decide)).2

/-- C5 counterexample: re-clamping with a strictly larger bound that is
smaller than `maxChars + marker length` changes the text again, so the
claimed idempotence for every larger bound fails. -/
theorem clampText_idem_counterexample :
    ¬ (clampText (clampText "aa".toList 1) 2 = clampText "aa".toList 1) := by
  decide

/-- C5 amended: `clampText` is idempotent when re-applied with the same
bound, or with any bound exceeding the clamped length
`maxChars + truncMarker.length`; bounds strictly in between re-truncate. -/
theorem clampText_idem (text : List Char) (m m2 : Nat)
    (h : m2 = m ∨ m + truncMarker.length ≤ m2) :
    clampText (clampText text m) m2 = clampText text m := by
  by_cases hfit : text.length ≤ m
  · have h2 : text.length ≤ m2 := by omega
    simp [clampText, hfit, h2]
  · have hlen : (clampText text m).length = m + truncMarker.length :=
      clampText_length_of_lt text m (by omega)
    rcases h with heq | hle
    · rw [heq]
      have hmark : 0 < truncMarker.length := by decide
      have hinner : clampText text m = text.take m ++ truncMarker := by
        simp [clampText, hfit]
      rw [hinner]
      have hgt : ¬ (text.take m ++ truncMarker).length ≤ m := by
        simp [List.length_take]
        omega
      simp only [clampText, hgt, if_false]
      rw [List.take_append_of_le_length (by simp [List.length_take]; omega),
        List.take_take]
      simp
    · have hok : (clampText text m).length ≤ m2 := by omega
      exact clampText_eq_of_le (clampText text m) m2 hok

/-- Witness for C5 at concrete inputs, one for each side of the amended
hypothesis. -/
theorem clampText_idem_witness :
    clampText (clampText "abcdef".toList 3) 3 = clampText "abcdef".toList 3 ∧
    clampText (clampText "abcdef".toList 3) 50 = clampText "abcdef".toList 3 := by
  constructor
  · exact clampText_idem "abcdef".toList 3 3 (Or.inl rfl)
  · exact clampText_idem "abcdef".toList 3 50 (Or.inr (by decide))

/-- Head-anchored occurrence of the secret pattern `sk-[a-zA-Z0-9]{20,}`:
the list starts with `sk-` followed by at least 20 alphanumerics. -/
def skSecretHead : List Char → Bool
  | c1 :: c2 :: c3 :: t => c1 == 's' && c2 == 'k' && c3 == '-' && decide (20 ≤ alnumRun t)
  | _ => false

/-- The text contains (anywhere) a substring matching the secret pattern
`sk-[a-zA-Z0-9]{20,}` of the first redaction regex. -/
def hasSk : List Char → Bool
  | [] => false
  | c :: t => skSecretHead (c :: t) || hasSk t

/-- The replacement text `***REDACTED***` shared by all three markers. -/
def redactedMark : List Char := ['*', '*', '*', 'R', 'E', 'D', 'A', 'C', 'T', 'E', 'D', '*', '*', '*']

/-- Tail of the `sk-***REDACTED***` marker after the retained prefix. -/
def skMarkerTail : List Char := redactedMark

/-- The replacement `sk-***REDACTED***` of the first redaction regex. -/
def skMarker : List Char := 's' :: 'k' :: '-' :: skMarkerTail

/-- The replacement `Bearer ***REDACTED***` of the second redaction regex. -/
def bearerMarker : List Char := ['B', 'e', 'a', 'r', 'e', 'r', ' '] ++ redactedMark

/-- The replacement `api_key: ***REDACTED***` of the third redaction regex. -/
def apiKeyMarker : List Char := ['a', 'p', 'i', '_', 'k', 'e', 'y', ':', ' '] ++ redactedMark

/-- Global replacement for `/sk-[a-zA-Z0-9]{20,}/g`: scan left to right;
at a match consume `sk-` and the maximal alphanumeric run (greedy) and
emit the marker, otherwise copy one character.  `fuel` only bounds the
recursion and is ample at `length`. -/
def redactSkAux : Nat → List Char → List Char
  | 0, l => l
  | _ + 1, [] => []
  | f + 1, c :: t =>
    if skSecretHead (c :: t) then
      skMarker ++ redactSkAux f ((t.drop 2).dropWhile isAlnum)
    else
      c :: redactSkAux f t

/-- First replacement pass of `redactSecrets`. -/
def redactSk (l : List Char) : List Char := redactSkAux l.length l

/-- Case-insensitive literal prefix match (the `i` regex flag, ASCII). -/
def startsCI : List Char → List Char → Bool
  | [], _ => true
  | _ :: _, [] => false
  | p :: ps, c :: cs => lowerChar c == p && startsCI ps cs

/-- Lower-case pattern `bearer` of the second redaction regex. -/
def bearerLit : List Char := ['b', 'e', 'a', 'r', 'e', 'r']

/-- Head-anchored match of `/Bearer\s+[a-zA-Z0-9\-_]{20,}/i`: the literal
(case-insensitively), at least one whitespace, then at least 20 token
characters; both runs are taken greedily. -/
def bearerMatch (l : List Char) : Bool :=
  startsCI bearerLit l &&
    decide (1 ≤ ((l.drop 6).takeWhile isWsChar).length) &&
    decide (20 ≤ (((l.drop 6).dropWhile isWsChar).takeWhile isTokenChar).length)

/-- Remainder of the input after a head-anchored Bearer match. -/
def bearerRest (l : List Char) : List Char :=
  (((l.drop 6).dropWhile isWsChar).dropWhile isTokenChar)

/-- Global replacement for `/Bearer\s+[a-zA-Z0-9\-_]{20,}/gi`. -/
def redactBearerAux : Nat → List Char → List Char
  | 0, l => l
  | _ + 1, [] => []
  | f + 1, c :: t =>
    if bearerMatch (c :: t) then
      bearerMarker ++ redactBearerAux f (bearerRest (c :: t))
    else
      c :: redactBearerAux f t

/-- Second replacement pass of `redactSecrets`. -/
def redactBearer (l : List Char) : List Char := redactBearerAux l.length l

/-- Lower-case pattern `api` of the third redaction regex. -/
def apiLit : List Char := ['a', 'p', 'i']

/-- Lower-case pattern `key` of the third redaction regex. -/
def keyLit : List Char := ['k', 'e', 'y']

/-- Consume the optional quote of `['"]?` (single or double). -/
def dropQuote : List Char → List Char
  | [] => []
  | q :: qs => if q == Char.ofNat 39 || q == '"' then qs else q :: qs

/-- Parse `[_-]?key` (case-insensitively) with the regex backtracking on
the optional separator; returns the remainder on success. -/
def apiKeySep : List Char → Option (List Char)
  | [] => none
  | c :: cs =>
    if (c == '_' || c == '-') && startsCI keyLit cs then some (cs.drop 3)
    else if startsCI keyLit (c :: cs) then some ((c :: cs).drop 3)
    else none

/-- Parse `\s*[:=]`; returns the remainder on success. -/
def apiKeyColon (r : List Char) : Option (List Char) :=
  match r.dropWhile isWsChar with
  | c :: cs => if c == ':' || c == '=' then some cs else none
  | [] => none

/-- Parse `\s*['"]?[a-zA-Z0-9\-_]{20,}['"]?` greedily; an opening quote
followed by a short run fails outright because a quote is not a token
character, matching the regex backtracking. -/
def apiKeyValue (r : List Char) : Option (List Char) :=
  let r6 := dropQuote (r.dropWhile isWsChar)
  if 20 ≤ (r6.takeWhile isTokenChar).length then
    some (dropQuote (r6.dropWhile isTokenChar))
  else none

/-- Head-anchored match of `/api[_-]?key\s*[:=]\s*['"]?[a-zA-Z0-9\-_]{20,}['"]?/i`;
returns the remainder after the match. -/
def apiKeyParse (l : List Char) : Option (List Char) :=
  if startsCI apiLit l then
    (apiKeySep (l.drop 3)).bind fun r2 => (apiKeyColon r2).bind fun r4 => apiKeyValue r4
  else none

/-- Global replacement for the api-key redaction regex. -/
def redactApiKeyAux : Nat → List Char → List Char
  | 0, l => l
  | _ + 1, [] => []
  | f + 1, c :: t =>
    match apiKeyParse (c :: t) with
    | some rest => apiKeyMarker ++ redactApiKeyAux f rest
    | none => c :: redactApiKeyAux f t

/-- Third replacement pass of `redactSecrets`. -/
def redactApiKey (l : List Char) : List Char := redactApiKeyAux l.length l

/-- `redactSecrets` of `src/utils/text-processing.ts`: the three global
regex replacements chained in source order. -/
def redactSecrets (l : List Char) : List Char :=
  redactApiKey (redactBearer (redactSk l))

/-- Inversion of a head-anchored secret occurrence. -/
theorem skSecretHead_inv : ∀ {l : List Char}, skSecretHead l = true →
    ∃ t, l = 's' :: 'k' :: '-' :: t ∧ 20 ≤ alnumRun t
  | c1 :: c2 :: c3 :: t, h => by
    simp only [skSecretHead, Bool.and_eq_true, beq_iff_eq, decide_eq_true_eq] at h
    obtain ⟨⟨⟨h1, h2⟩, h3⟩, h4⟩ := h
    subst h1; subst h2; subst h3
    exact ⟨t, rfl, h4⟩

/-- No secret occurrence starts at a character other than `s`. -/
theorem skSecretHead_first_ne {c : Char} (t : List Char) (h : c ≠ 's') :
    skSecretHead (c :: t) = false := by
  cases t with
  | nil => rfl
  | cons c2 t2 =>
    cases t2 with
    | nil => rfl
    | cons c3 t3 => simp [skSecretHead, h]

/-- No secret occurrence has a second character other than `k`. -/
theorem skSecretHead_second_ne (c1 : Char) {c2 : Char} (t : List Char) (h : c2 ≠ 'k') :
    skSecretHead (c1 :: c2 :: t) = false := by
  cases t with
  | nil => rfl
  | cons c3 t3 => simp [skSecretHead, h]

/-- No secret occurrence has a third character other than `-`. -/
theorem skSecretHead_third_ne (c1 c2 : Char) {c3 : Char} (t : List Char) (h : c3 ≠ '-') :
    skSecretHead (c1 :: c2 :: c3 :: t) = false := by
  simp [skSecretHead, h]

/-- A short alphanumeric run after the prefix defeats the pattern. -/
theorem skSecretHead_run_lt (c1 c2 c3 : Char) (t : List Char) (h : alnumRun t < 20) :
    skSecretHead (c1 :: c2 :: c3 :: t) = false := by
  simp only [skSecretHead, Bool.and_eq_false_iff]
  right
  simpa using h

/-- Reduction of the pattern at an exact `sk-` prefix. -/
theorem skSecretHead_sk (t : List Char) :
    skSecretHead ('s' :: 'k' :: '-' :: t) = decide (20 ≤ alnumRun t) := by
  simp [skSecretHead]

/-- Unfolding lemma for `hasSk`. -/
theorem hasSk_cons (c : Char) (t : List Char) :
    hasSk (c :: t) = (skSecretHead (c :: t) || hasSk t) := rfl

/-- A secret-free text stays secret-free on each suffix. -/
theorem hasSk_false_of_suffix {l₁ l₂ : List Char} (h : l₁ <:+ l₂)
    (h2 : hasSk l₂ = false) : hasSk l₁ = false := by
  obtain ⟨s, rfl⟩ := h
  induction s with
  | nil => exact h2
  | cons a s ih =>
    rw [List.cons_append, hasSk_cons, Bool.or_eq_false_iff] at h2
    exact ih h2.2

/-- The alphanumeric run does not shrink under appending. -/
theorem alnumRun_le_append (t v : List Char) : alnumRun t ≤ alnumRun (t ++ v) := by
  induction t with
  | nil => simp [alnumRun]
  | cons c t ih =>
    rw [List.cons_append, alnumRun_cons, alnumRun_cons]
    by_cases h : isAlnum c = true <;> simp [h, ih]

/-- A case-insensitive match of an alphanumeric literal guarantees an
alphanumeric character. -/
theorem isAlnum_of_lowerChar {c p : Char} (hl : lowerChar c = p) (hp : isAlnum p = true) :
    isAlnum c = true := by
  unfold lowerChar at hl
  by_cases hup : ('A' ≤ c && c ≤ 'Z') = true
  · simp [isAlnum, hup]
  · rw [if_neg hup] at hl
    rw [hl]
    exact hp

/-- A case-insensitive match of an all-alphanumeric literal bounds the
alphanumeric run from below. -/
theorem alnumRun_ge_of_startsCI : ∀ (pat l : List Char),
    (∀ p ∈ pat, isAlnum p = true) → startsCI pat l = true → pat.length ≤ alnumRun l
  | [], _, _, _ => Nat.zero_le _
  | p :: ps, [], _, h => by simp [startsCI] at h
  | p :: ps, c :: cs, hpat, h => by
    rw [startsCI, Bool.and_eq_true, beq_iff_eq] at h
    obtain ⟨h1, h2⟩ := h
    have hc : isAlnum c = true := isAlnum_of_lowerChar h1 (hpat p (by simp))
    rw [alnumRun_cons, if_pos hc, List.length_cons]
    have := alnumRun_ge_of_startsCI ps cs (fun q hq => hpat q (by simp [hq])) h2
    omega

/-- A case-insensitive prefix match bounds the length of the text. -/
theorem startsCI_length : ∀ (pat l : List Char), startsCI pat l = true →
    pat.length ≤ l.length
  | [], _, _ => Nat.zero_le _
  | p :: ps, [], h => by simp [startsCI] at h
  | p :: ps, c :: cs, h => by
    rw [startsCI, Bool.and_eq_true] at h
    have := startsCI_length ps cs h.2
    simp
    omega

/-- The scanners leave the empty text unchanged. -/
theorem redactSkAux_nil (f : Nat) : redactSkAux f [] = [] := by cases f <;> rfl

/-- Bearer scanner on the empty text. -/
theorem redactBearerAux_nil (f : Nat) : redactBearerAux f [] = [] := by cases f <;> rfl

/-- Api-key scanner on the empty text. -/
theorem redactApiKeyAux_nil (f : Nat) : redactApiKeyAux f [] = [] := by cases f <;> rfl

/-- The visible run of the `sk-` marker (and of any `sk-` prefix) is 2. -/
theorem alnumRun_sk_prefix (y : List Char) : alnumRun ('s' :: 'k' :: '-' :: y) = 2 := by
  simp [alnumRun_cons, (by decide : isAlnum 's' = true),
    (by decide : isAlnum 'k' = true), (by decide : isAlnum '-' = false)]

/-- The visible alphanumeric run of the Bearer marker is exactly 6. -/
theorem alnumRun_bearerMarker_append (x : List Char) :
    alnumRun (bearerMarker ++ x) = 6 := by
  simp [bearerMarker, redactedMark, List.cons_append, alnumRun_cons,
    (by decide : isAlnum 'B' = true), (by decide : isAlnum 'e' = true),
    (by decide : isAlnum 'a' = true), (by decide : isAlnum 'r' = true),
    (by decide : isAlnum ' ' = false)]

/-- The visible alphanumeric run of the api-key marker is exactly 3. -/
theorem alnumRun_apiKeyMarker_append (x : List Char) :
    alnumRun (apiKeyMarker ++ x) = 3 := by
  simp [apiKeyMarker, redactedMark, List.cons_append, alnumRun_cons,
    (by decide : isAlnum 'a' = true), (by decide : isAlnum 'p' = true),
    (by decide : isAlnum 'i' = true), (by decide : isAlnum '_' = false)]

/-- A Bearer match begins with the literal (case-insensitively). -/
theorem bearerMatch_startsCI {l : List Char} (h : bearerMatch l = true) :
    startsCI bearerLit l = true := by
  rw [bearerMatch, Bool.and_eq_true, Bool.and_eq_true] at h
  exact h.1.1

/-- An api-key match begins with the literal (case-insensitively). -/
theorem apiKeyParse_startsCI {l r : List Char} (h : apiKeyParse l = some r) :
    startsCI apiLit l = true := by
  by_cases hs : startsCI apiLit l = true
  · exact hs
  · rw [apiKeyParse, if_neg hs] at h
    exact Option.noConfusion h

/-- `dropQuote` returns a suffix. -/
theorem dropQuote_suffix (l : List Char) : dropQuote l <:+ l := by
  cases l with
  | nil => exact List.suffix_rfl
  | cons q qs =>
    rw [dropQuote]
    by_cases h : (q == Char.ofNat 39 || q == '"') = true
    · rw [if_pos h]
      exact List.suffix_cons q qs
    · rw [if_neg h]

/-- `apiKeySep` returns a suffix of its input. -/
theorem apiKeySep_suffix {l r : List Char} (h : apiKeySep l = some r) : r <:+ l := by
  cases l with
  | nil => exact Option.noConfusion h
  | cons c cs =>
    rw [apiKeySep] at h
    by_cases h1 : ((c == '_' || c == '-') && startsCI keyLit cs) = true
    · rw [if_pos h1] at h
      obtain rfl := Option.some_injective _ h
      exact (List.drop_suffix 3 cs).trans (List.suffix_cons c cs)
    · rw [if_neg h1] at h
      by_cases h2 : startsCI keyLit (c :: cs) = true
      · rw [if_pos h2] at h
        obtain rfl := Option.some_injective _ h
        exact List.drop_suffix 3 (c :: cs)
      · rw [if_neg h2] at h
        exact Option.noConfusion h

/-- `apiKeyColon` returns a suffix of its input. -/
theorem apiKeyColon_suffix {l r : List Char} (h : apiKeyColon l = some r) : r <:+ l := by
  rw [apiKeyColon] at h
  split at h
  case h_2 => exact Option.noConfusion h
  case h_1 c cs hdw =>
    split at h
    · obtain rfl := Option.some_injective _ h
      refine (List.suffix_cons c cs).trans ?_
      rw [← hdw]
      exact List.dropWhile_suffix isWsChar
    · exact Option.noConfusion h

/-- `apiKeyValue` returns a suffix of its input. -/
theorem apiKeyValue_suffix {l r : List Char} (h : apiKeyValue l = some r) : r <:+ l := by
  rw [apiKeyValue] at h
  by_cases hlen : 20 ≤ ((dropQuote (l.dropWhile isWsChar)).takeWhile isTokenChar).length
  · rw [if_pos hlen] at h
    obtain rfl := Option.some_injective _ h
    refine (dropQuote_suffix _).trans ?_
    refine (List.dropWhile_suffix isTokenChar).trans ?_
    refine (dropQuote_suffix _).trans ?_
    exact List.dropWhile_suffix isWsChar
  · rw [if_neg hlen] at h
    exact Option.noConfusion h

/-- The remainder of an api-key match is a suffix of the input after the
three-character literal. -/
theorem apiKeyParse_suffix {l r : List Char} (h : apiKeyParse l = some r) :
    r <:+ l.drop 3 := by
  have hs := apiKeyParse_startsCI h
  rw [apiKeyParse, if_pos hs] at h
  rcases h1 : apiKeySep (l.drop 3) with _ | r2
  · rw [h1] at h
    exact Option.noConfusion h
  · rw [h1, Option.some_bind] at h
    rcases h2 : apiKeyColon r2 with _ | r4
    · rw [h2] at h
      exact Option.noConfusion h
    · rw [h2, Option.some_bind] at h
      exact ((apiKeyValue_suffix h).trans (apiKeyColon_suffix h2)).trans
        (apiKeySep_suffix h1)

/-- The `sk-` marker contributes a visible run of exactly 2. -/
theorem alnumRun_skMarker_append (x : List Char) : alnumRun (skMarker ++ x) = 2 := by
  rw [skMarker]
  simp only [List.cons_append]
  exact alnumRun_sk_prefix _

/-- The first redaction pass never lengthens the leading alphanumeric run. -/
theorem alnumRun_redactSkAux : ∀ (f : Nat) (l : List Char), l.length ≤ f →
    alnumRun (redactSkAux f l) ≤ alnumRun l := by
  intro f
  induction f with
  | zero =>
    intro l h
    have hnil : l = [] := List.eq_nil_of_length_eq_zero (Nat.le_zero.mp h)
    subst hnil
    simp [redactSkAux_nil]
  | succ f ih =>
    intro l h
    cases l with
    | nil => simp [redactSkAux_nil]
    | cons c t =>
      by_cases hm : skSecretHead (c :: t) = true
      · obtain ⟨u, heq, hrun⟩ := skSecretHead_inv hm
        simp only [redactSkAux, if_pos hm]
        rw [alnumRun_skMarker_append, heq, alnumRun_sk_prefix]
      · simp only [redactSkAux, if_neg hm]
        rw [alnumRun_cons, alnumRun_cons]
        have ht : t.length ≤ f := by
          simp only [List.length_cons] at h
          omega
        by_cases hc : isAlnum c = true
        · simp only [hc, if_pos]
          have := ih t ht
          omega
        · simp [hc]

/-- The Bearer redaction pass never lengthens the leading alphanumeric run. -/
theorem alnumRun_redactBearerAux : ∀ (f : Nat) (l : List Char), l.length ≤ f →
    alnumRun (redactBearerAux f l) ≤ alnumRun l := by
  intro f
  induction f with
  | zero =>
    intro l h
    have hnil : l = [] := List.eq_nil_of_length_eq_zero (Nat.le_zero.mp h)
    subst hnil
    simp [redactBearerAux_nil]
  | succ f ih =>
    intro l h
    cases l with
    | nil => simp [redactBearerAux_nil]
    | cons c t =>
      by_cases hm : bearerMatch (c :: t) = true
      · simp only [redactBearerAux, if_pos hm]
        rw [alnumRun_bearerMarker_append]
        exact alnumRun_ge_of_startsCI bearerLit (c :: t) (by decide)
          (bearerMatch_startsCI hm)
      · simp only [redactBearerAux, if_neg hm]
        rw [alnumRun_cons, alnumRun_cons]
        have ht : t.length ≤ f := by
          simp only [List.length_cons] at h
          omega
        by_cases hc : isAlnum c = true
        · simp only [hc, if_pos]
          have := ih t ht
          omega
        · simp [hc]

/-- The api-key redaction pass never lengthens the leading alphanumeric run. -/
theorem alnumRun_redactApiKeyAux : ∀ (f : Nat) (l : List Char), l.length ≤ f →
    alnumRun (redactApiKeyAux f l) ≤ alnumRun l := by
  intro f
  induction f with
  | zero =>
    intro l h
    have hnil : l = [] := List.eq_nil_of_length_eq_zero (Nat.le_zero.mp h)
    subst hnil
    simp [redactApiKeyAux_nil]
  | succ f ih =>
    intro l h
    cases l with
    | nil => simp [redactApiKeyAux_nil]
    | cons c t =>
      rcases hp : apiKeyParse (c :: t) with _ | rest
      · simp only [redactApiKeyAux, hp]
        rw [alnumRun_cons, alnumRun_cons]
        have ht : t.length ≤ f := by
          simp only [List.length_cons] at h
          omega
        by_cases hc : isAlnum c = true
        · simp only [hc, if_pos]
          have := ih t ht
          omega
        · simp [hc]
      · simp only [redactApiKeyAux, hp]
        rw [alnumRun_apiKeyMarker_append]
        exact alnumRun_ge_of_startsCI apiLit (c :: t) (by decide)
          (apiKeyParse_startsCI hp)

/-- Prepending a text with no `s` at all cannot create or hide a secret
occurrence. -/
theorem hasSk_append_no_s : ∀ (m x : List Char), (∀ c ∈ m, c ≠ 's') →
    hasSk (m ++ x) = hasSk x := by
  intro m
  induction m with
  | nil => intro x _; rfl
  | cons a m ih =>
    intro x hm
    rw [List.cons_append, hasSk_cons, skSecretHead_first_ne _ (hm a (by simp)),
      Bool.false_or]
    exact ih x fun c hc => hm c (by simp [hc])

/-- The inserted `sk-` marker is transparent for secret detection. -/
theorem hasSk_skMarker_append (x : List Char) : hasSk (skMarker ++ x) = hasSk x := by
  have h1 : skMarker ++ x = 's' :: 'k' :: '-' :: (skMarkerTail ++ x) := by
    rw [skMarker]
    simp
  rw [h1, hasSk_cons, skSecretHead_sk]
  have h2 : alnumRun (skMarkerTail ++ x) = 0 := by
    rw [skMarkerTail, redactedMark]
    simp [List.cons_append, alnumRun_cons, (by decide : isAlnum '*' = false)]
  rw [h2]
  simp only [(by decide : decide (20 ≤ 0) = false), Bool.false_or]
  have h3 : 'k' :: '-' :: (skMarkerTail ++ x) = ('k' :: '-' :: skMarkerTail) ++ x := by
    simp
  rw [h3]
  exact hasSk_append_no_s _ x (by decide)

/-- The inserted Bearer marker is transparent for secret detection. -/
theorem hasSk_bearerMarker_append (x : List Char) :
    hasSk (bearerMarker ++ x) = hasSk x :=
  hasSk_append_no_s _ x (by decide)

/-- The inserted api-key marker is transparent for secret detection. -/
theorem hasSk_apiKeyMarker_append (x : List Char) :
    hasSk (apiKeyMarker ++ x) = hasSk x :=
  hasSk_append_no_s _ x (by decide)

/-- Junction lemma for the first pass: an `s` copied in front of the
scanner output opens no secret occurrence that the input did not have. -/
theorem skSecretHead_cons_redactSkAux : ∀ (f : Nat) (t : List Char), t.length ≤ f →
    skSecretHead ('s' :: t) = false →
    skSecretHead ('s' :: redactSkAux f t) = false := by
  intro f t hlen h
  cases t with
  | nil => rw [redactSkAux_nil]; rfl
  | cons d t2 =>
    cases f with
    | zero => simp at hlen
    | succ f1 =>
      by_cases hm : skSecretHead (d :: t2) = true
      · simp only [redactSkAux, if_pos hm, skMarker]
        exact skSecretHead_second_ne _ _ (by decide)
      · simp only [redactSkAux, if_neg hm]
        by_cases hd : d = 'k'
        · subst hd
          cases t2 with
          | nil => rw [redactSkAux_nil]; rfl
          | cons e t3 =>
            simp only [List.length_cons] at hlen
            cases f1 with
            | zero => omega
            | succ f2 =>
              by_cases hm2 : skSecretHead (e :: t3) = true
              · simp only [redactSkAux, if_pos hm2, skMarker]
                exact skSecretHead_third_ne _ _ _ (by decide)
              · simp only [redactSkAux, if_neg hm2]
                by_cases he : e = '-'
                · subst he
                  rw [skSecretHead_sk]
                  rw [skSecretHead_sk] at h
                  have hr : alnumRun t3 < 20 := by
                    by_contra hc
                    simp only [not_lt] at hc
                    simp [hc] at h
                  have hmono := alnumRun_redactSkAux f2 t3 (by omega)
                  simp only [decide_eq_false_iff_not, not_le]
                  omega
                · exact skSecretHead_third_ne _ _ _ he
        · exact skSecretHead_second_ne _ _ hd

/-- Junction lemma for the Bearer pass. -/
theorem skSecretHead_cons_redactBearerAux : ∀ (f : Nat) (t : List Char), t.length ≤ f →
    skSecretHead ('s' :: t) = false →
    skSecretHead ('s' :: redactBearerAux f t) = false := by
  intro f t hlen h
  cases t with
  | nil => rw [redactBearerAux_nil]; rfl
  | cons d t2 =>
    cases f with
    | zero => simp at hlen
    | succ f1 =>
      by_cases hm : bearerMatch (d :: t2) = true
      · simp only [redactBearerAux, if_pos hm, bearerMarker, redactedMark,
          List.cons_append]
        exact skSecretHead_second_ne _ _ (by decide)
      · simp only [redactBearerAux, if_neg hm]
        by_cases hd : d = 'k'
        · subst hd
          cases t2 with
          | nil => rw [redactBearerAux_nil]; rfl
          | cons e t3 =>
            simp only [List.length_cons] at hlen
            cases f1 with
            | zero => omega
            | succ f2 =>
              by_cases hm2 : bearerMatch (e :: t3) = true
              · simp only [redactBearerAux, if_pos hm2, bearerMarker, redactedMark,
                  List.cons_append]
                exact skSecretHead_third_ne _ _ _ (by decide)
              · simp only [redactBearerAux, if_neg hm2]
                by_cases he : e = '-'
                · subst he
                  rw [skSecretHead_sk]
                  rw [skSecretHead_sk] at h
                  have hr : alnumRun t3 < 20 := by
                    by_contra hc
                    simp only [not_lt] at hc
                    simp [hc] at h
                  have hmono := alnumRun_redactBearerAux f2 t3 (by omega)
                  simp only [decide_eq_false_iff_not, not_le]
                  omega
                · exact skSecretHead_third_ne _ _ _ he
        · exact skSecretHead_second_ne _ _ hd

/-- Junction lemma for the api-key pass. -/
theorem skSecretHead_cons_redactApiKeyAux : ∀ (f : Nat) (t : List Char), t.length ≤ f →
    skSecretHead ('s' :: t) = false →
    skSecretHead ('s' :: redactApiKeyAux f t) = false := by
  intro f t hlen h
  cases t with
  | nil => rw [redactApiKeyAux_nil]; rfl
  | cons d t2 =>
    cases f with
    | zero => simp at hlen
    | succ f1 =>
      rcases hm : apiKeyParse (d :: t2) with _ | rest
      · simp only [redactApiKeyAux, hm]
        by_cases hd : d = 'k'
        · subst hd
          cases t2 with
          | nil => rw [redactApiKeyAux_nil]; rfl
          | cons e t3 =>
            simp only [List.length_cons] at hlen
            cases f1 with
            | zero => omega
            | succ f2 =>
              rcases hm2 : apiKeyParse (e :: t3) with _ | rest2
              · simp only [redactApiKeyAux, hm2]
                by_cases he : e = '-'
                · subst he
                  rw [skSecretHead_sk]
                  rw [skSecretHead_sk] at h
                  have hr : alnumRun t3 < 20 := by
                    by_contra hc
                    simp only [not_lt] at hc
                    simp [hc] at h
                  have hmono := alnumRun_redactApiKeyAux f2 t3 (by omega)
                  simp only [decide_eq_false_iff_not, not_le]
                  omega
                · exact skSecretHead_third_ne _ _ _ he
              · simp only [redactApiKeyAux, hm2, apiKeyMarker, redactedMark,
                  List.cons_append]
                exact skSecretHead_third_ne _ _ _ (by decide)
        · exact skSecretHead_second_ne _ _ hd
      · simp only [redactApiKeyAux, hm, apiKeyMarker, redactedMark, List.cons_append]
        exact skSecretHead_second_ne _ _ (by decide)

/-- The first redaction pass removes every occurrence of the secret
pattern: its output never contains `sk-` followed by 20 alphanumerics. -/
theorem hasSk_redactSkAux_false : ∀ (f : Nat) (l : List Char), l.length ≤ f →
    hasSk (redactSkAux f l) = false := by
  intro f
  induction f with
  | zero =>
    intro l h
    have hnil : l = [] := List.eq_nil_of_length_eq_zero (Nat.le_zero.mp h)
    subst hnil
    rfl
  | succ f ih =>
    intro l h
    cases l with
    | nil => rw [redactSkAux_nil]; rfl
    | cons c t =>
      have ht : t.length ≤ f := by
        simp only [List.length_cons] at h
        omega
      by_cases hm : skSecretHead (c :: t) = true
      · simp only [redactSkAux, if_pos hm]
        rw [hasSk_skMarker_append]
        apply ih
        have h1 : ((t.drop 2).dropWhile isAlnum).length ≤ (t.drop 2).length :=
          (List.dropWhile_suffix isAlnum).length_le
        have h2 : (t.drop 2).length ≤ t.length := by
          rw [List.length_drop]
          omega
        omega
      · simp only [redactSkAux, if_neg hm]
        rw [hasSk_cons, ih t ht, Bool.or_false]
        by_cases hc : c = 's'
        · subst hc
          exact skSecretHead_cons_redactSkAux f t ht (by simpa using hm)
        · exact skSecretHead_first_ne _ hc

/-- The Bearer pass preserves freedom from the secret pattern. -/
theorem hasSk_redactBearerAux_false : ∀ (f : Nat) (l : List Char), l.length ≤ f →
    hasSk l = false → hasSk (redactBearerAux f l) = false := by
  intro f
  induction f with
  | zero =>
    intro l h hsk
    have hnil : l = [] := List.eq_nil_of_length_eq_zero (Nat.le_zero.mp h)
    subst hnil
    rfl
  | succ f ih =>
    intro l h hsk
    cases l with
    | nil => rw [redactBearerAux_nil]; rfl
    | cons c t =>
      have ht : t.length ≤ f := by
        simp only [List.length_cons] at h
        omega
      have hsk_t : hasSk t = false := by
        rw [hasSk_cons, Bool.or_eq_false_iff] at hsk
        exact hsk.2
      by_cases hm : bearerMatch (c :: t) = true
      · simp only [redactBearerAux, if_pos hm]
        rw [hasSk_bearerMarker_append]
        have hsuf : bearerRest (c :: t) <:+ (c :: t).drop 6 :=
          (List.dropWhile_suffix isTokenChar).trans (List.dropWhile_suffix isWsChar)
        apply ih
        · have h1 : (bearerRest (c :: t)).length ≤ ((c :: t).drop 6).length :=
            hsuf.length_le
          have h2 : ((c :: t).drop 6).length = (c :: t).length - 6 :=
            List.length_drop 6 (c :: t)
          simp only [List.length_cons] at h2
          omega
        · exact hasSk_false_of_suffix (hsuf.trans (List.drop_suffix 6 (c :: t))) hsk
      · simp only [redactBearerAux, if_neg hm]
        rw [hasSk_cons, ih t ht hsk_t, Bool.or_false]
        by_cases hc : c = 's'
        · subst hc
          have hhead : skSecretHead ('s' :: t) = false := by
            rw [hasSk_cons, Bool.or_eq_false_iff] at hsk
            exact hsk.1
          exact skSecretHead_cons_redactBearerAux f t ht hhead
        · exact skSecretHead_first_ne _ hc

/-- The api-key pass preserves freedom from the secret pattern. -/
theorem hasSk_redactApiKeyAux_false : ∀ (f : Nat) (l : List Char), l.length ≤ f →
    hasSk l = false → hasSk (redactApiKeyAux f l) = false := by
  intro f
  induction f with
  | zero =>
    intro l h hsk
    have hnil : l = [] := List.eq_nil_of_length_eq_zero (Nat.le_zero.mp h)
    subst hnil
    rfl
  | succ f ih =>
    intro l h hsk
    cases l with
    | nil => rw [redactApiKeyAux_nil]; rfl
    | cons c t =>
      have ht : t.length ≤ f := by
        simp only [List.length_cons] at h
        omega
      have hsk_t : hasSk t = false := by
        rw [hasSk_cons, Bool.or_eq_false_iff] at hsk
        exact hsk.2
      rcases hm : apiKeyParse (c :: t) with _ | rest
      · simp only [redactApiKeyAux, hm]
        rw [hasSk_cons, ih t ht hsk_t, Bool.or_false]
        by_cases hc : c = 's'
        · subst hc
          have hhead : skSecretHead ('s' :: t) = false := by
            rw [hasSk_cons, Bool.or_eq_false_iff] at hsk
            exact hsk.1
          exact skSecretHead_cons_redactApiKeyAux f t ht hhead
        · exact skSecretHead_first_ne _ hc
      · simp only [redactApiKeyAux, hm]
        rw [hasSk_apiKeyMarker_append]
        have hsuf : rest <:+ (c :: t).drop 3 := apiKeyParse_suffix hm
        apply ih
        · have h1 : rest.length ≤ ((c :: t).drop 3).length := hsuf.length_le
          have h2 : ((c :: t).drop 3).length = (c :: t).length - 3 :=
            List.length_drop 3 (c :: t)
          simp only [List.length_cons] at h2
          omega
        · exact hasSk_false_of_suffix (hsuf.trans (List.drop_suffix 3 (c :: t))) hsk

/-- If the input still contains a secret occurrence, the first pass
inserts the `sk-***REDACTED***` marker somewhere. -/
theorem skMarker_infix_redactSkAux : ∀ (f : Nat) (l : List Char), l.length ≤ f →
    hasSk l = true → skMarker <:+: redactSkAux f l := by
  intro f
  induction f with
  | zero =>
    intro l h hsk
    have hnil : l = [] := List.eq_nil_of_length_eq_zero (Nat.le_zero.mp h)
    subst hnil
    exact Bool.noConfusion hsk
  | succ f ih =>
    intro l h hsk
    cases l with
    | nil => exact Bool.noConfusion hsk
    | cons c t =>
      have ht : t.length ≤ f := by
        simp only [List.length_cons] at h
        omega
      by_cases hm : skSecretHead (c :: t) = true
      · simp only [redactSkAux, if_pos hm]
        exact ⟨[], redactSkAux f ((t.drop 2).dropWhile isAlnum), by simp⟩
      · simp only [redactSkAux, if_neg hm]
        have hskt : hasSk t = true := by
          rw [hasSk_cons] at hsk
          rcases Bool.or_eq_true_iff.mp hsk with h1 | h2
          · exact absurd h1 hm
          · exact h2
        exact List.infix_cons (ih t ht hskt)

/-- The Bearer pass either leaves the text unchanged or inserts its own
`***REDACTED***` replacement. -/
theorem redactBearerAux_eq_or_marker : ∀ (f : Nat) (l : List Char),
    redactBearerAux f l = l ∨ redactedMark <:+: redactBearerAux f l := by
  intro f
  induction f with
  | zero => intro l; exact Or.inl rfl
  | succ f ih =>
    intro l
    cases l with
    | nil => exact Or.inl (redactBearerAux_nil _)
    | cons c t =>
      by_cases hm : bearerMatch (c :: t) = true
      · simp only [redactBearerAux, if_pos hm]
        refine Or.inr ⟨['B', 'e', 'a', 'r', 'e', 'r', ' '],
          redactBearerAux f (bearerRest (c :: t)), ?_⟩
        simp [bearerMarker]
      · simp only [redactBearerAux, if_neg hm]
        rcases ih t with heq | hmark
        · rw [heq]
          exact Or.inl rfl
        · exact Or.inr (List.infix_cons hmark)

/-- The api-key pass either leaves the text unchanged or inserts its own
`***REDACTED***` replacement. -/
theorem redactApiKeyAux_eq_or_marker : ∀ (f : Nat) (l : List Char),
    redactApiKeyAux f l = l ∨ redactedMark <:+: redactApiKeyAux f l := by
  intro f
  induction f with
  | zero => intro l; exact Or.inl rfl
  | succ f ih =>
    intro l
    cases l with
    | nil => exact Or.inl (redactApiKeyAux_nil _)
    | cons c t =>
      rcases hm : apiKeyParse (c :: t) with _ | rest
      · simp only [redactApiKeyAux, hm]
        rcases ih t with heq | hmark
        · rw [heq]
          exact Or.inl rfl
        · exact Or.inr (List.infix_cons hmark)
      · simp only [redactApiKeyAux, hm]
        refine Or.inr ⟨['a', 'p', 'i', '_', 'k', 'e', 'y', ':', ' '],
          redactApiKeyAux f rest, ?_⟩
        simp [apiKeyMarker]

/-- Any text that contains (as a factor) a head-anchored secret occurrence
contains a secret occurrence. -/
theorem hasSk_true_of_parts : ∀ (u : List Char) {s v : List Char},
    skSecretHead s = true → hasSk (u ++ (s ++ v)) = true := by
  intro u
  induction u with
  | nil =>
    intro s v hs
    obtain ⟨t0, rfl, hrun⟩ := skSecretHead_inv hs
    rw [List.nil_append]
    simp only [List.cons_append]
    rw [hasSk_cons, skSecretHead_sk]
    have := alnumRun_le_append t0 v
    have h20 : decide (20 ≤ alnumRun (t0 ++ v)) = true := by
      simp only [decide_eq_true_eq]
      omega
    rw [h20, Bool.true_or]
  | cons a u ih =>
    intro s v hs
    rw [List.cons_append, hasSk_cons, ih hs, Bool.or_true]

/-- A secret occurrence as an infix implies a secret occurrence. -/
theorem hasSk_true_of_infix {s l : List Char} (hs : skSecretHead s = true)
    (h : s <:+: l) : hasSk l = true := by
  obtain ⟨u, v, rfl⟩ := h
  rw [List.append_assoc]
  exact hasSk_true_of_parts u hs

/-- The full redaction chain never leaves any occurrence of the secret
pattern `sk-` + 20 alphanumerics in its output. -/
theorem hasSk_redactSecrets (l : List Char) : hasSk (redactSecrets l) = false := by
  unfold redactSecrets redactApiKey redactBearer redactSk
  exact hasSk_redactApiKeyAux_false _ _ le_rfl
    (hasSk_redactBearerAux_false _ _ le_rfl
      (hasSk_redactSkAux_false _ _ le_rfl))

/-- Concrete input for the C1 counterexample: a Bearer token immediately
followed by an `sk-` secret. -/
def c1SecretInput : List Char := "Bearer aaaaaaaaaaaaaaaaaaaask-bbbbbbbbbbbbbbbbbbbb".toList

/-- C1 counterexample: the input contains a substring matching
`sk-[a-zA-Z0-9]{20,}`, yet the final output of `redactSecrets` does not
contain the marker `sk-***REDACTED***` — the Bearer replacement consumes
the `sk-` prefix of the marker inserted by the first pass. -/
theorem redactSecrets_marker_counterexample :
    hasSk c1SecretInput = true ∧ ¬ skMarker <:+: redactSecrets c1SecretInput := by
  constructor
  · decide
  · decide

/-- C1 amended: for any secret occurrence in the input, the output of
`redactSecrets` never contains any substring matching the secret pattern
(in particular not the matched secret itself); the output always retains
a `***REDACTED***` replacement; and the full `sk-***REDACTED***` marker is
present whenever the later Bearer and api-key passes leave the text of
the first pass unchanged. -/
theorem redactSecrets_amended (l s : List Char) (hs : skSecretHead s = true)
    (hl : hasSk l = true) :
    ¬ s <:+: redactSecrets l ∧
    redactedMark <:+: redactSecrets l ∧
    (redactBearer (redactSk l) = redactSk l → redactApiKey (redactSk l) = redactSk l →
      skMarker <:+: redactSecrets l) := by
  refine ⟨?_, ?_, ?_⟩
  · intro hinf
    have h1 := hasSk_true_of_infix hs hinf
    rw [hasSk_redactSecrets] at h1
    exact Bool.noConfusion h1
  · have h1 : skMarker <:+: redactSk l :=
      skMarker_infix_redactSkAux _ _ le_rfl hl
    have hrm : redactedMark <:+: skMarker :=
      ⟨['s', 'k', '-'], [], by simp [skMarker, skMarkerTail]⟩
    have h2 : redactedMark <:+: redactBearer (redactSk l) := by
      rcases redactBearerAux_eq_or_marker (redactSk l).length (redactSk l) with heq | hmk
      · rw [show redactBearer (redactSk l) = redactSk l from heq]
        exact hrm.trans h1
      · exact hmk
    rcases redactApiKeyAux_eq_or_marker (redactBearer (redactSk l)).length
        (redactBearer (redactSk l)) with heq | hmk
    · rw [show redactSecrets l = redactApiKey (redactBearer (redactSk l)) from rfl,
        show redactApiKey (redactBearer (redactSk l)) = redactBearer (redactSk l) from heq]
      exact h2
    · exact hmk
  · intro hEq2 hEq3
    have h1 : skMarker <:+: redactSk l :=
      skMarker_infix_redactSkAux _ _ le_rfl hl
    rw [show redactSecrets l = redactApiKey (redactBearer (redactSk l)) from rfl, hEq2,
      hEq3]
    exact h1

/-- Witness for the amended C1 at a concrete secret. -/
theorem redactSecrets_amended_witness :
    skSecretHead "sk-aaaaaaaaaaaaaaaaaaaa".toList = true ∧
    hasSk "sk-aaaaaaaaaaaaaaaaaaaa".toList = true ∧
    ¬ "sk-aaaaaaaaaaaaaaaaaaaa".toList <:+:
        redactSecrets "sk-aaaaaaaaaaaaaaaaaaaa".toList ∧
    skMarker <:+: redactSecrets "sk-aaaaaaaaaaaaaaaaaaaa".toList := by
  refine ⟨by decide, by decide, ?_, ?_⟩
  · exact (redactSecrets_amended "sk-aaaaaaaaaaaaaaaaaaaa".toList
      "sk-aaaaaaaaaaaaaaaaaaaa".toList (by decide) (by decide)).1
  · exact (redactSecrets_amended "sk-aaaaaaaaaaaaaaaaaaaa".toList
      "sk-aaaaaaaaaaaaaaaaaaaa".toList (by decide) (by decide)).2.2 (by decide) (by decide)

/-- The literal `<think>` of the reasoning-extraction regex. -/
def openTagL : List Char := ['<', 't', 'h', 'i', 'n', 'k', '>']

/-- The literal `</think>` of the reasoning-extraction regex. -/
def closeTagL : List Char := ['<', '/', 't', 'h', 'i', 'n', 'k', '>']

/-- Lazy search for the first close tag: returns the inner text up to the
first case-insensitive `</think>` and the remainder after it. -/
def findClose : List Char → Option (List Char × List Char)
  | [] => none
  | c :: t =>
    if startsCI closeTagL (c :: t) then some ([], (c :: t).drop 8)
    else
      match findClose t with
      | some (i, a) => some (c :: i, a)
      | none => none

/-- Leftmost match of `/<think>([\s\S]*?)<\/think>/i`: at each position try
the open tag followed by a lazily-extended inner text and the close tag;
returns `(before, inner, after)` for the first full match. -/
def findThink : List Char → Option (List Char × List Char × List Char)
  | [] => none
  | c :: t =>
    if startsCI openTagL (c :: t) then
      match findClose ((c :: t).drop 7) with
      | some (i, a) => some ([], i, a)
      | none =>
        match findThink t with
        | some (b, i, a) => some (c :: b, i, a)
        | none => none
    else
      match findThink t with
      | some (b, i, a) => some (c :: b, i, a)
      | none => none

/-- Result shape of `extractThinking`. -/
structure ThinkResult where
  thinking : Option (List Char)
  content : List Char
deriving DecidableEq

/-- `extractThinking` of `src/utils/text-processing.ts`: on a match the
thinking is the trimmed inner text and the content is the input with the
first matched block removed and trimmed; otherwise the input is returned
unchanged with a null thinking. -/
def extractThinking (text : List Char) : ThinkResult :=
  match findThink text with
  | some (b, i, a) => ⟨some (jsTrim i), jsTrim (b ++ a)⟩
  | none => ⟨none, text⟩

/-- The case-insensitive open tag occurs at position `p`. -/
def openAtCI (l : List Char) (p : Nat) : Bool := startsCI openTagL (l.drop p)

/-- The case-insensitive close tag occurs at position `p`. -/
def closeAtCI (l : List Char) (p : Nat) : Bool := startsCI closeTagL (l.drop p)

/-- Some close tag occurs somewhere in the text. -/
def closeExists (m : List Char) : Bool :=
  (List.range m.length).any fun q => closeAtCI m q

/-- Declarative companion of `extractThinking`, written from the spec: the
first (leftmost) position with a complete case-insensitive
`<think>...</think>` block is located by index search; the thinking is the
trimmed text strictly between the open tag and the first close tag after
it, and the content is the input with that block removed, trimmed;
otherwise (no complete block, including an unmatched opening tag) the
input is returned unchanged. -/
def extractThinkingSpec (text : List Char) : ThinkResult :=
  match (List.range text.length).find? (fun p =>
      openAtCI text p && closeExists (text.drop (p + 7))) with
  | none => ⟨none, text⟩
  | some p =>
    match (List.range (text.drop (p + 7)).length).find?
        (fun q => closeAtCI (text.drop (p + 7)) q) with
    | none => ⟨none, text⟩
    | some q =>
      ⟨some (jsTrim ((text.drop (p + 7)).take q)),
        jsTrim (text.take p ++ (text.drop (p + 7)).drop (q + 8))⟩

/-- Characterization of the lazy close-tag search by index search. -/
theorem findClose_eq : ∀ l : List Char,
    findClose l =
      match (List.range l.length).find? (fun q => closeAtCI l q) with
      | none => none
      | some q => some (l.take q, l.drop (q + 8)) := by
  intro l
  induction l with
  | nil => rfl
  | cons c t ih =>
    rw [List.length_cons, List.range_succ_eq_map]
    by_cases h0 : closeAtCI (c :: t) 0 = true
    · rw [List.find?_cons_of_pos _ h0]
      have hs : startsCI closeTagL (c :: t) = true := h0
      simp only [findClose, if_pos hs]
      simp
    · rw [List.find?_cons_of_neg _ h0]
      have hs : ¬ startsCI closeTagL (c :: t) = true := h0
      simp only [findClose, if_neg hs]
      rw [List.find?_map]
      have hcomp : ((fun q => closeAtCI (c :: t) q) ∘ Nat.succ) =
          fun q => closeAtCI t q := by
        funext q
        simp [closeAtCI, Function.comp, List.drop_succ_cons]
      rw [hcomp, ih]
      rcases (List.range t.length).find? (fun q => closeAtCI t q) with _ | q
      · rfl
      · simp [List.take_succ_cons, List.drop_succ_cons]

/-- Boolean `any` agrees with the success of `find?`. -/
theorem any_eq_isSome_find? {α : Type} (p : α → Bool) : ∀ l : List α,
    l.any p = (l.find? p).isSome := by
  intro l
  induction l with
  | nil => rfl
  | cons a l ih =>
    by_cases h : p a = true
    · simp [List.any_cons, List.find?_cons_of_pos _ h, h]
    · simp only [List.any_cons, List.find?_cons_of_neg _ h, ih]
      simp [h]

/-- A successful index search implies the existential search succeeds. -/
theorem closeExists_of_find?_some {m : List Char} {q : Nat}
    (h : (List.range m.length).find? (fun q => closeAtCI m q) = some q) :
    closeExists m = true := by
  rw [closeExists, any_eq_isSome_find?, h]
  rfl

/-- `findClose` succeeds exactly when a close tag exists. -/
theorem findClose_none_iff (m : List Char) :
    findClose m = none ↔ closeExists m = false := by
  rw [findClose_eq]
  rcases hq : (List.range m.length).find? (fun q => closeAtCI m q) with _ | q
  · simp only [true_iff]
    rw [closeExists, any_eq_isSome_find?, hq]
    rfl
  · simp only [iff_false]
    rw [closeExists_of_find?_some hq]
    simp

/-- Characterization of the leftmost-match search by index search: the
match position is the first position carrying an open tag with some close
tag at least 7 characters later. -/
theorem findThink_eq : ∀ l : List Char,
    findThink l =
      match (List.range l.length).find? (fun p =>
          openAtCI l p && closeExists (l.drop (p + 7))) with
      | none => none
      | some p =>
        match findClose (l.drop (p + 7)) with
        | none => none
        | some (i, a) => some (l.take p, i, a) := by
  intro l
  induction l with
  | nil => rfl
  | cons c t ih =>
    rw [List.length_cons, List.range_succ_eq_map]
    have hdrop : ∀ p : Nat, (c :: t).drop (p + 1 + 7) = t.drop (p + 7) := by
      intro p
      rw [show p + 1 + 7 = (p + 7) + 1 from by omega, List.drop_succ_cons]
    by_cases h0 : (openAtCI (c :: t) 0 && closeExists ((c :: t).drop (0 + 7))) = true
    · rw [List.find?_cons]
      simp only [h0]
      rw [Bool.and_eq_true] at h0
      obtain ⟨ho, hc⟩ := h0
      have ho' : startsCI openTagL (c :: t) = true := ho
      rcases hfc : findClose ((c :: t).drop 7) with _ | ⟨i, a⟩
      · rw [findClose_none_iff] at hfc
        rw [show ((c :: t).drop (0 + 7)) = ((c :: t).drop 7) from by norm_num] at hc
        rw [hfc] at hc
        exact Bool.noConfusion hc
      · simp only [findThink, if_pos ho', hfc]
        simp
    · have h0' : (openAtCI (c :: t) 0 && closeExists ((c :: t).drop (0 + 7))) = false := by
        simpa using h0
      rw [List.find?_cons]
      simp only [h0']
      rw [List.find?_map]
      have hcomp : ((fun p => openAtCI (c :: t) p && closeExists ((c :: t).drop (p + 7)))
          ∘ Nat.succ) = fun p => openAtCI t p && closeExists (t.drop (p + 7)) := by
        funext p
        simp only [Function.comp]
        rw [show Nat.succ p + 7 = p + 1 + 7 from by omega, hdrop p]
        have : openAtCI (c :: t) (Nat.succ p) = openAtCI t p := by
          simp [openAtCI, List.drop_succ_cons]
        rw [this]
      rw [hcomp]
      have hreduce : findThink (c :: t) =
          match findThink t with
          | some (b, i, a) => some (c :: b, i, a)
          | none => none := by
        by_cases ho : startsCI openTagL (c :: t) = true
        · have hce : closeExists ((c :: t).drop (0 + 7)) = false := by
            rcases hce' : closeExists ((c :: t).drop (0 + 7)) with _ | _
            · rfl
            · exfalso
              apply h0
              rw [Bool.and_eq_true]
              exact ⟨ho, hce'⟩
          have hfc : findClose ((c :: t).drop 7) = none := by
            rw [findClose_none_iff]
            rw [show ((c :: t).drop (0 + 7)) = ((c :: t).drop 7) from by norm_num] at hce
            exact hce
          simp only [findThink, if_pos ho, hfc]
        · simp only [findThink, if_neg ho]
      rw [hreduce, ih]
      rcases hft : (List.range t.length).find? (fun p =>
          openAtCI t p && closeExists (t.drop (p + 7))) with _ | p
      · rfl
      · simp only [Option.map_some']
        rw [show p.succ + 7 = p + 1 + 7 from by omega, hdrop p]
        rcases hfc2 : findClose (t.drop (p + 7)) with _ | ⟨i, a⟩
        · rfl
        · simp [List.take_succ_cons]

/-- The scanner and the declarative index specification agree (helper
shared by the extraction results). -/
theorem extractThinking_agrees (text : List Char) :
    extractThinking text = extractThinkingSpec text := by
  rw [extractThinking, extractThinkingSpec, findThink_eq]
  rcases hft : (List.range text.length).find? (fun p =>
      openAtCI text p && closeExists (text.drop (p + 7))) with _ | p
  · rfl
  · simp only []
    rw [findClose_eq]
    rcases hq : (List.range (text.drop (p + 7)).length).find?
        (fun q => closeAtCI (text.drop (p + 7)) q) with _ | q
    · rfl
    · simp

/-- C6: `extractThinking` coincides with its declarative specification: it
considers only the first case-insensitive, non-greedy complete
`<think>...</think>` block — if one exists, thinking is the trimmed inner
text and content the input with that block removed and trimmed, and
otherwise (also for an unmatched opening tag) thinking is null and the
content is the input unchanged. -/
theorem extractThinking_eq_spec (text : List Char) :
    extractThinking text = extractThinkingSpec text :=
  extractThinking_agrees text

/-- JSON string escaping of one character, as `JSON.stringify` does. -/
def jsonEscapeChar (c : Char) : List Char :=
  if c = '"' then ['\\', '"']
  else if c = '\\' then ['\\', '\\']
  else if c = '\x08' then ['\\', 'b']
  else if c = '\x0c' then ['\\', 'f']
  else if c = '\n' then ['\\', 'n']
  else if c = '\r' then ['\\', 'r']
  else if c = '\t' then ['\\', 't']
  else if c.toNat < 32 then
    ['\\', 'u', '0', '0',
      (if c.toNat / 16 < 10 then Char.ofNat (48 + c.toNat / 16)
        else Char.ofNat (87 + c.toNat / 16)),
      (if c.toNat % 16 < 10 then Char.ofNat (48 + c.toNat % 16)
        else Char.ofNat (87 + c.toNat % 16))]
  else [c]

/-- A JSON string literal with quotes and escaping. -/
def jsonQuote (s : List Char) : List Char :=
  '"' :: (s.foldr (fun c acc => jsonEscapeChar c ++ acc) []) ++ ['"']

/-- `JSON.stringify(\x7b thinking, content \x7d)` as built by `delegate`. -/
def jsonStringifyThinking (th content : List Char) : List Char :=
  "\x7b\"thinking\":".toList ++ jsonQuote th ++ ",\"content\":".toList ++
    jsonQuote content ++ "\x7d".toList

/-- Reply post-processing of `delegate` (`src/core/delegate.ts`, lines
85–94): when extraction is enabled and a truthy (non-null, non-empty)
thinking was found, return the JSON envelope; otherwise return the raw
provider reply unchanged. -/
def postProcess (extractEnabled : Bool) (result : List Char) : List Char :=
  if extractEnabled then
    match extractThinking result with
    | ⟨some th, content⟩ =>
      if th.isEmpty then result else jsonStringifyThinking th content
    | ⟨none, _⟩ => result
  else result

/-- C10: a complete think block whose inner text trims to the empty string
is not treated as thinking: the raw reply is returned unchanged, with the
(empty) think tags still present in the returned content. -/
theorem postProcess_empty_thinking (r : List Char)
    (h : (extractThinkingSpec r).thinking = some []) :
    postProcess true r = r ∧ ∃ p, openAtCI (postProcess true r) p = true := by
  have he := extractThinking_agrees r
  have hunch : postProcess true r = r := by
    rw [postProcess, if_pos rfl]
    rcases hx : extractThinking r with ⟨th, co⟩
    have hth : th = some [] := by
      rw [he] at hx
      rw [hx] at h
      simpa using h
    subst hth
    simp
  refine ⟨hunch, ?_⟩
  rw [hunch]
  rw [extractThinkingSpec] at h
  rcases hft : (List.range r.length).find? (fun p =>
      openAtCI r p && closeExists (r.drop (p + 7))) with _ | p
  · rw [hft] at h
    exact Option.noConfusion h
  · have hp := List.find?_some hft
    rw [Bool.and_eq_true] at hp
    exact ⟨p, hp.1⟩

/-- Witness for C10 at the concrete reply with an empty think block. -/
theorem postProcess_empty_thinking_witness :
    (extractThinkingSpec "<think></think>answer".toList).thinking = some [] ∧
    postProcess true "<think></think>answer".toList = "<think></think>answer".toList := by
  refine ⟨by decide, ?_⟩
  exact (postProcess_empty_thinking "<think></think>answer".toList (by decide)).1

/-- `baseUrl.replace(/\/$/, "")` of `callOpenAICompat`: strips one
trailing slash. -/
def stripTrailingSlash (l : List Char) : List Char :=
  match l.getLast? with
  | some '/' => l.dropLast
  | _ => l

/-- Leading-slash normalization of the configured path. -/
def ensureLeadingSlash (p : List Char) : List Char :=
  match p with
  | '/' :: _ => p
  | _ => '/' :: p

/-- Request URL of `callOpenAICompat` (`src/providers/openai.ts`, lines
12-14): the stripped base concatenated with the normalized path. -/
def buildOpenAIUrl (baseUrl path : List Char) : List Char :=
  stripTrailingSlash baseUrl ++ ensureLeadingSlash path

/-- Default of `DELEGATE_OPENAI_PATH` (`src/config/index.ts`). -/
def defaultOpenAIPath : List Char := "/v1/chat/completions".toList

/-- C3 counterexample: with a base URL ending in `/v1` and the default
path, the request URL does contain a doubled `/v1/v1` segment — no
collapsing is performed by the code. -/
theorem buildOpenAIUrl_counterexample :
    "/v1/v1".toList <:+:
      buildOpenAIUrl "http://localhost:8080/v1".toList defaultOpenAIPath := by
  decide

/-- C3 amended: the client targets the base URL with one trailing slash
stripped, concatenated with the configured path (given a leading slash if
missing); no duplicate-segment collapsing is performed, so whenever the
stripped base ends in `/v1` the default-path URL contains `/v1/v1`. -/
theorem buildOpenAIUrl_spec (base path : List Char)
    (h : "/v1".toList <:+ stripTrailingSlash base) :
    buildOpenAIUrl base path = stripTrailingSlash base ++ ensureLeadingSlash path ∧
    "/v1/v1".toList <:+: buildOpenAIUrl base defaultOpenAIPath := by
  constructor
  · rfl
  · obtain ⟨u, hu⟩ := h
    refine ⟨u, "/chat/completions".toList, ?_⟩
    rw [buildOpenAIUrl, ← hu]
    have hpath : ensureLeadingSlash defaultOpenAIPath = defaultOpenAIPath := rfl
    rw [hpath, List.append_assoc, List.append_assoc]
    congr 1

/-- Witness for C3 at a concrete base URL. -/
theorem buildOpenAIUrl_spec_witness :
    "/v1".toList <:+ stripTrailingSlash "http://h/v1/".toList ∧
    "/v1/v1".toList <:+: buildOpenAIUrl "http://h/v1/".toList defaultOpenAIPath := by
  refine ⟨by decide, ?_⟩
  exact (buildOpenAIUrl_spec "http://h/v1/".toList defaultOpenAIPath (by decide)).2

/-- A message of an OpenAI-compatible chat choice. -/
structure OAIMessage where
  content : Option (List Char)

/-- One choice of an OpenAI-compatible chat response. -/
structure OAIChoice where
  message : Option OAIMessage
  finish_reason : Option (List Char)

/-- Body of a 2xx OpenAI-compatible chat response; absent fields are
`none`. -/
structure OAIResponse where
  choices : Option (List OAIChoice)

/-- `data.choices?.[0]?.message?.content || ""` of `callOpenAICompat`. -/
def oaiContent (d : OAIResponse) : List Char :=
  ((((d.choices.getD []).head?).bind (fun c => c.message)).bind
    (fun m => m.content)).getD []

/-- `data.choices?.[0]?.finish_reason` of `callOpenAICompat`. -/
def oaiFinishReason (d : OAIResponse) : Option (List Char) :=
  ((d.choices.getD []).head?).bind (fun c => c.finish_reason)

/-- The distinct output-truncated failure message. -/
def truncatedMsg : List Char := "Response was truncated due to max_tokens limit".toList

/-- The generic empty-reply failure message. -/
def emptyReplyMsg : List Char := "OpenAI-compatible API returned empty response".toList

/-- Reply handling of `callOpenAICompat` on a 2xx response
(`src/providers/openai.ts`, lines 46-57): empty content with a `length`
finish reason fails with the truncation message, empty content otherwise
fails with the generic message, non-empty content is returned unchanged. -/
def handleOpenAIBody (d : OAIResponse) : Except (List Char) (List Char) :=
  if oaiContent d = [] ∧ oaiFinishReason d = some "length".toList then
    .error truncatedMsg
  else if oaiContent d = [] then
    .error emptyReplyMsg
  else
    .ok (oaiContent d)

/-- C7: the three-way classification of a 2xx reply, with the truncation
case reported by a message distinct from the generic empty-reply one. -/
theorem handleOpenAIBody_spec (d : OAIResponse) :
    (oaiContent d = [] → oaiFinishReason d = some "length".toList →
      handleOpenAIBody d = .error truncatedMsg) ∧
    (oaiContent d = [] → oaiFinishReason d ≠ some "length".toList →
      handleOpenAIBody d = .error emptyReplyMsg) ∧
    (oaiContent d ≠ [] → handleOpenAIBody d = .ok (oaiContent d)) ∧
    truncatedMsg ≠ emptyReplyMsg := by
  refine ⟨?_, ?_, ?_, by decide⟩
  · intro h1 h2
    rw [handleOpenAIBody, if_pos ⟨h1, h2⟩]
  · intro h1 h2
    rw [handleOpenAIBody, if_neg (fun hc => h2 hc.2), if_pos h1]
  · intro h1
    rw [handleOpenAIBody, if_neg (fun hc => h1 hc.1), if_neg h1]

/-- Witness for C7 on three concrete replies. -/
theorem handleOpenAIBody_spec_witness :
    handleOpenAIBody ⟨some [⟨some ⟨some []⟩, some "length".toList⟩]⟩ =
      .error truncatedMsg ∧
    handleOpenAIBody ⟨some []⟩ = .error emptyReplyMsg ∧
    handleOpenAIBody ⟨some [⟨some ⟨some "hi".toList⟩, some "stop".toList⟩]⟩ =
      .ok "hi".toList := by
  refine ⟨?_, ?_, ?_⟩
  · exact (handleOpenAIBody_spec _).1 (by decide) (by decide)
  · exact (handleOpenAIBody_spec _).2.1 (by decide) (by decide)
  · have h := (handleOpenAIBody_spec
      (⟨some [⟨some ⟨some "hi".toList⟩, some "stop".toList⟩]⟩ : OAIResponse)).2.2.1
      (by decide)
    rw [h]
    exact congrArg Except.ok (by decide)

/-- The fixed isolation reminder prepended by `delegate`
(`src/core/delegate.ts`, line 55). -/
def isolationReminder : List Char :=
  ("[IMPORTANT: You are being called as a helper model. You have NO access to " ++
   "the calling model\x27s context, files, or conversation history. You ONLY have " ++
   "the information provided below. Do not reference or assume knowledge of " ++
   "anything not explicitly stated here.]\n\n").toList

/-- The five recognized delegation modes. -/
def validModes : List (List Char) :=
  ["plan".toList, "review".toList, "challenge".toList, "explain".toList, "tests".toList]

/-- Default per-mode system prompts (`SYSTEM_PROMPTS` of
`src/config/index.ts`; environment overrides are not modelled, the lookup
shape is). -/
def systemPromptFor (mode : List Char) : List Char :=
  if mode = "plan".toList then
    ("You are a planning assistant. Provide a step-by-step plan, list " ++
     "assumptions, and identify risks.").toList
  else if mode = "review".toList then
    ("You are a code reviewer. Review the provided code and identify: bugs, " ++
     "code quality issues, potential improvements, and best practice violations. " ++
     "Rate severity and provide specific, actionable fixes. Focus on correctness, " ++
     "maintainability, and code quality.").toList
  else if mode = "challenge".toList then
    ("You are a devil\x27s advocate and critical thinker. Your role is to " ++
     "challenge ideas, find flaws, weaknesses, and potential problems in ANY " ++
     "proposal, plan, or concept (not just code). Be thorough, skeptical, and " ++
     "question assumptions. Look for: logical fallacies, missing considerations, " ++
     "edge cases, unintended consequences, scalability issues, and any other " ++
     "potential weaknesses. Be constructive but rigorous - your goal is to " ++
     "strengthen ideas by finding their weak points.").toList
  else if mode = "tests".toList then
    ("You are a test design assistant. Provide a test checklist and edge cases " ++
     "to consider.").toList
  else if mode = "explain".toList then
    "You are an explanation assistant. Provide concise, clear explanations.".toList
  else []

/-- Process-wide configuration read by `delegate`; the `process.env`
overrides of model and provider are resolved into these fields. -/
structure DelegateConfig where
  providerKind : List Char
  model : List Char
  maxTokensDefault : Int
  inputCharLimit : Nat
  extractThinkingEnabled : Bool

/-- The normalized request handed to a provider client. -/
structure ProviderCall where
  model : List Char
  systemPrompt : List Char
  userMessage : List Char
  maxTokens : Int
  temperature : Float
  providerKind : List Char

/-- `maxTokens ? Math.max(1, Math.min(100000, maxTokens)) : DELEGATE_MAX_TOKENS`
(`src/core/delegate.ts`, lines 21-23); a supplied 0 is falsy in JavaScript
and selects the default. -/
def resolveMaxTokens (maxTokens : Option Int) (dflt : Int) : Int :=
  match maxTokens with
  | some v => if v = 0 then dflt else max 1 (min 100000 v)
  | none => dflt

/-- `userMessage` body of `delegate` (`src/core/delegate.ts`, lines
49-52): the `if (context)` truthiness check wraps a non-empty context
with the `Context:`/`Task:` markers; an empty or absent context leaves
the input alone. -/
def contextBody (input : List Char) (ctx : Option (List Char)) : List Char :=
  match ctx with
  | some c =>
    if c.isEmpty then input
    else "Context:\n".toList ++ c ++ "\n\nTask:\n".toList ++ input
  | none => input

/-- Validation and request construction of `delegate` (continued). -/
def delegatePrepare (cfg : DelegateConfig) (temperature : Float)
    (mode input : List Char) (context : Option (List Char))
    (maxTokens : Option Int) : Except (List Char) ProviderCall :=
  if cfg.model = [] ∨ jsTrim cfg.model = [] then
    .error "DELEGATE_MODEL environment variable is required".toList
  else if ¬ mode ∈ validModes then
    .error ("Invalid mode: ".toList ++ mode ++
      ". Must be one of: plan, review, challenge, explain, tests".toList)
  else if input = [] ∨ jsTrim input = [] then
    .error "Input must be a non-empty string".toList
  else if cfg.providerKind = "ollama".toList ∨ cfg.providerKind = "openai_compat".toList then
    .ok ⟨cfg.model, systemPromptFor mode,
      redactSecrets (clampText (isolationReminder ++ contextBody input context)
        cfg.inputCharLimit),
      resolveMaxTokens maxTokens cfg.maxTokensDefault, temperature, cfg.providerKind⟩
  else
    .error ("Unknown provider: ".toList ++ cfg.providerKind ++
      ". Must be \x27ollama\x27 or \x27openai_compat\x27".toList)

/-- A sample valid configuration used for concrete inputs. -/
def cfgDemo : DelegateConfig :=
  ⟨"ollama".toList, "m".toList, 32000, 2097152, true⟩

/-- The user message of a successful call, projected out. -/
def callUserMessage (e : Except (List Char) ProviderCall) : Option (List Char) :=
  match e with
  | .ok c => some c.userMessage
  | .error _ => none

/-- The token bound of a successful call, projected out. -/
def callMaxTokens (e : Except (List Char) ProviderCall) : Option Int :=
  match e with
  | .ok c => some c.maxTokens
  | .error _ => none

set_option maxRecDepth 40000 in
/-- C2 counterexample: supplying an empty context is treated like no
context (JavaScript truthiness of `if (context)`), so the claimed
`Context:`-wrapped formula does not describe the outbound message. -/
theorem delegate_context_counterexample :
    callUserMessage (delegatePrepare cfgDemo 0.2 "plan".toList "hi".toList (some []) none) =
      some (redactSecrets (clampText (isolationReminder ++ "hi".toList)
        cfgDemo.inputCharLimit)) ∧
    callUserMessage (delegatePrepare cfgDemo 0.2 "plan".toList "hi".toList (some []) none) ≠
      some (redactSecrets (clampText (isolationReminder ++
        ("Context:\n".toList ++ ([] : List Char) ++ "\n\nTask:\n".toList ++ "hi".toList))
        cfgDemo.inputCharLimit)) := by
  constructor
  · decide
  · decide

/-- C2 amended: for every successful call, the outbound user message is
exactly `redactSecrets (clampText (isolationReminder ++ body))`, where
the body wraps the context with the `Context:`/`Task:` markers only when
a non-empty context is supplied (an empty context behaves as none), and
the character bound is applied before redaction. -/
theorem delegatePrepare_userMessage (cfg : DelegateConfig) (temp : Float)
    (mode input : List Char) (ctx : Option (List Char)) (mt : Option Int)
    (call : ProviderCall)
    (h : delegatePrepare cfg temp mode input ctx mt = .ok call) :
    call.userMessage = redactSecrets (clampText (isolationReminder ++
      contextBody input ctx) cfg.inputCharLimit) := by
  unfold delegatePrepare at h
  split at h
  · exact Except.noConfusion h
  · split at h
    · exact Except.noConfusion h
    · split at h
      · exact Except.noConfusion h
      · split at h
        · injection h with h2
          rw [← h2]
        · exact Except.noConfusion h

/-- Witness for the amended C2: concrete call with a non-empty context. -/
theorem delegatePrepare_userMessage_witness :
    callUserMessage (delegatePrepare cfgDemo 0.2 "plan".toList "task".toList
        (some "ctx".toList) none) =
      some (redactSecrets (clampText (isolationReminder ++
        ("Context:\n".toList ++ "ctx".toList ++ "\n\nTask:\n".toList ++ "task".toList))
        cfgDemo.inputCharLimit)) := by
  rcases hx : delegatePrepare cfgDemo 0.2 "plan".toList "task".toList
      (some "ctx".toList) none with e | call
  · have hok : (callUserMessage (delegatePrepare cfgDemo 0.2 "plan".toList
        "task".toList (some "ctx".toList) none)).isSome = true := by decide
    rw [hx] at hok
    simp [callUserMessage] at hok
  · have hmsg := delegatePrepare_userMessage cfgDemo 0.2 "plan".toList "task".toList
      (some "ctx".toList) none call hx
    rw [callUserMessage]
    exact congrArg some hmsg

/-- C4 counterexample: a supplied `maxTokens` of 0 is falsy in JavaScript,
so the configured default (32000 here) is used instead of the claimed
clamp to the minimum 1. -/
theorem resolveMaxTokens_counterexample :
    callMaxTokens (delegatePrepare cfgDemo 0.2 "plan".toList "hi".toList none (some 0)) =
      some 32000 ∧
    ¬ ((32000 : Int) = max 1 (min 100000 (0 : Int))) := by
  constructor
  · decide
  · decide

/-- C4 amended: a supplied non-zero `maxTokens` is clamped into
`[1, 100000]`; a supplied 0 (falsy) and an unspecified `maxTokens` both
select the configured default. -/
theorem delegatePrepare_maxTokens (cfg : DelegateConfig) (temp : Float)
    (mode input : List Char) (ctx : Option (List Char)) (mt : Option Int)
    (call : ProviderCall)
    (h : delegatePrepare cfg temp mode input ctx mt = .ok call) :
    call.maxTokens = resolveMaxTokens mt cfg.maxTokensDefault ∧
    (∀ v : Int, mt = some v → v ≠ 0 → call.maxTokens = max 1 (min 100000 v)) ∧
    (mt = some 0 → call.maxTokens = cfg.maxTokensDefault) ∧
    (mt = none → call.maxTokens = cfg.maxTokensDefault) := by
  have h1 : call.maxTokens = resolveMaxTokens mt cfg.maxTokensDefault := by
    unfold delegatePrepare at h
    split at h
    · exact Except.noConfusion h
    · split at h
      · exact Except.noConfusion h
      · split at h
        · exact Except.noConfusion h
        · split at h
          · injection h with h2
            rw [← h2]
          · exact Except.noConfusion h
  refine ⟨h1, ?_, ?_, ?_⟩
  · intro v hv hnz
    rw [h1, hv, resolveMaxTokens]
    simp [hnz]
  · intro hv
    rw [h1, hv, resolveMaxTokens]
    simp
  · intro hv
    rw [h1, hv, resolveMaxTokens]

/-- Witness for the amended C4: an oversized request is clamped to the
maximum. -/
theorem delegatePrepare_maxTokens_witness :
    callMaxTokens (delegatePrepare cfgDemo 0.2 "plan".toList "hi".toList none
        (some 500000)) = some 100000 := by
  rcases hx : delegatePrepare cfgDemo 0.2 "plan".toList "hi".toList none
      (some 500000) with e | call
  · have hok : (callMaxTokens (delegatePrepare cfgDemo 0.2 "plan".toList "hi".toList
        none (some 500000))).isSome = true := by decide
    rw [hx] at hok
    simp [callMaxTokens] at hok
  · have hmt := (delegatePrepare_maxTokens cfgDemo 0.2 "plan".toList "hi".toList none
      (some 500000) call hx).2.1 500000 rfl (by decide)
    rw [callMaxTokens, hmt]
    decide

/-- JSON values as produced by `JSON.parse`; numbers keep their raw
token (no floating-point arithmetic is performed on them). -/
inductive Json where
  | null
  | bool (b : Bool)
  | num (raw : List Char)
  | str (s : List Char)
  | arr (xs : List Json)
  | obj (fields : List (List Char × Json))

/-- JSON whitespace. -/
def jsonWs (c : Char) : Bool := c = ' ' || c = '\t' || c = '\n' || c = '\r'

/-- Decimal digit test. -/
def isDigit (c : Char) : Bool := '0' ≤ c && c ≤ '9'

/-- One hexadecimal digit of a `\u` escape. -/
def parseHexDigit (c : Char) : Option Nat :=
  if '0' ≤ c ∧ c ≤ '9' then some (c.toNat - 48)
  else if 'a' ≤ c ∧ c ≤ 'f' then some (c.toNat - 87)
  else if 'A' ≤ c ∧ c ≤ 'F' then some (c.toNat - 55)
  else none

/-- JSON string body parser (after the opening quote); decodes escapes.
A `\u` escape naming an unpaired surrogate falls back to the null
character via `Char.ofNat`. -/
def parseJsonString : Nat → List Char → Option (List Char × List Char)
  | 0, _ => none
  | _ + 1, [] => none
  | f + 1, c :: rest =>
    if c = '"' then some ([], rest)
    else if c = '\\' then
      match rest with
      | [] => none
      | e :: rest2 =>
        let dec : Option (Char × List Char) :=
          if e = '"' then some ('"', rest2)
          else if e = '\\' then some ('\\', rest2)
          else if e = '/' then some ('/', rest2)
          else if e = 'b' then some ('\x08', rest2)
          else if e = 'f' then some ('\x0c', rest2)
          else if e = 'n' then some ('\n', rest2)
          else if e = 'r' then some ('\r', rest2)
          else if e = 't' then some ('\t', rest2)
          else if e = 'u' then
            match rest2 with
            | h1 :: h2 :: h3 :: h4 :: rest3 =>
              match parseHexDigit h1, parseHexDigit h2, parseHexDigit h3,
                  parseHexDigit h4 with
              | some a, some b, some c2, some d =>
                some (Char.ofNat (a * 4096 + b * 256 + c2 * 16 + d), rest3)
              | _, _, _, _ => none
            | _ => none
          else none
        match dec with
        | some (ch, r) =>
          match parseJsonString f r with
          | some (s, rr) => some (ch :: s, rr)
          | none => none
        | none => none
    else if c.toNat < 32 then none
    else
      match parseJsonString f rest with
      | some (s, rr) => some (c :: s, rr)
      | none => none

/-- Fractional part of a JSON number. -/
def parseJsonFrac : List Char → Option (List Char × List Char)
  | '.' :: rf =>
    let ds := rf.takeWhile isDigit
    if ds.isEmpty then none else some ('.' :: ds, rf.dropWhile isDigit)
  | l => some ([], l)

/-- Exponent part of a JSON number. -/
def parseJsonExp : List Char → Option (List Char × List Char)
  | e :: re =>
    if e = 'e' ∨ e = 'E' then
      let se : List Char × List Char :=
        match re with
        | s :: rs => if s = '+' ∨ s = '-' then ([s], rs) else ([], re)
        | [] => ([], re)
      let ds := se.2.takeWhile isDigit
      if ds.isEmpty then none
      else some (e :: (se.1 ++ ds), se.2.dropWhile isDigit)
    else some ([], e :: re)
  | [] => some ([], [])

/-- A JSON number token (strict grammar, no leading zeros). -/
def parseJsonNumber (l : List Char) : Option (List Char × List Char) :=
  let sign : List Char := match l with | '-' :: _ => ['-'] | _ => []
  let r1 := l.drop sign.length
  let ipart := r1.takeWhile isDigit
  if ipart.isEmpty then none
  else if 2 ≤ ipart.length ∧ ipart.head? = some '0' then none
  else
    match parseJsonFrac (r1.dropWhile isDigit) with
    | none => none
    | some (fpart, r3) =>
      match parseJsonExp r3 with
      | none => none
      | some (epart, r4) => some (sign ++ ipart ++ fpart ++ epart, r4)

mutual

/-- Recursive-descent JSON value parser with ample fuel. -/
def parseJsonValue : Nat → List Char → Option (Json × List Char)
  | 0, _ => none
  | f + 1, l0 =>
    match l0.dropWhile jsonWs with
    | [] => none
    | c :: rest =>
      if c = '"' then
        match parseJsonString (rest.length + 1) rest with
        | some (s, r) => some (.str s, r)
        | none => none
      else if c = Char.ofNat 123 then
        match rest.dropWhile jsonWs with
        | cb :: r2 =>
          if cb = Char.ofNat 125 then some (.obj [], r2)
          else
            match parseJsonObjectItems f (rest.dropWhile jsonWs) with
            | some (fs, rr) => some (.obj fs, rr)
            | none => none
        | [] => none
      else if c = '[' then
        match rest.dropWhile jsonWs with
        | ']' :: r2 => some (.arr [], r2)
        | _ =>
          match parseJsonArrayItems f (rest.dropWhile jsonWs) with
          | some (vs, rr) => some (.arr vs, rr)
          | none => none
      else if List.isPrefixOf "true".toList (c :: rest) then
        some (.bool true, (c :: rest).drop 4)
      else if List.isPrefixOf "false".toList (c :: rest) then
        some (.bool false, (c :: rest).drop 5)
      else if List.isPrefixOf "null".toList (c :: rest) then
        some (.null, (c :: rest).drop 4)
      else
        match parseJsonNumber (c :: rest) with
        | some (raw, r) => some (.num raw, r)
        | none => none

/-- Comma-separated array items up to the closing bracket. -/
def parseJsonArrayItems : Nat → List Char → Option (List Json × List Char)
  | 0, _ => none
  | f + 1, l =>
    match parseJsonValue f l with
    | none => none
    | some (v, r) =>
      match r.dropWhile jsonWs with
      | ',' :: r2 =>
        match parseJsonArrayItems f r2 with
        | some (vs, rr) => some (v :: vs, rr)
        | none => none
      | ']' :: r2 => some ([v], r2)
      | _ => none

/-- Comma-separated object members up to the closing brace. -/
def parseJsonObjectItems : Nat → List Char →
    Option (List (List Char × Json) × List Char)
  | 0, _ => none
  | f + 1, l =>
    match l.dropWhile jsonWs with
    | '"' :: r =>
      match parseJsonString (r.length + 1) r with
      | none => none
      | some (k, r2) =>
        match r2.dropWhile jsonWs with
        | ':' :: r3 =>
          match parseJsonValue f r3 with
          | none => none
          | some (v, r4) =>
            match r4.dropWhile jsonWs with
            | ',' :: r5 =>
              match parseJsonObjectItems f r5 with
              | some (fs, rr) => some ((k, v) :: fs, rr)
              | none => none
            | cb :: r5 =>
              if cb = Char.ofNat 125 then some ([(k, v)], r5) else none
            | [] => none
        | _ => none
    | _ => none

end

/-- `JSON.parse` on a whole text: one value plus trailing whitespace. -/
def jsonParse (l : List Char) : Option Json :=
  match parseJsonValue (2 * l.length + 2) l with
  | some (v, r) => if (r.dropWhile jsonWs).isEmpty then some v else none
  | none => none

/-- JavaScript property read on a parsed JSON object: with duplicate keys
the last occurrence wins. -/
def jsonFieldLast (fields : List (List Char × Json)) (key : List Char) : Option Json :=
  (fields.reverse.find? (fun kv => kv.1 == key)).map (fun kv => kv.2)

/-- The mantissa of a number token carries a non-zero digit. -/
def jsMantissaNonZero (raw : List Char) : Bool :=
  (raw.takeWhile (fun c => c ≠ 'e' ∧ c ≠ 'E')).any (fun c => '1' ≤ c && c ≤ '9')

/-- JavaScript truthiness of a parsed JSON value. -/
def jsTruthy : Json → Bool
  | .null => false
  | .bool b => b
  | .num raw => jsMantissaNonZero raw
  | .str s => ¬ s.isEmpty
  | .arr _ => true
  | .obj _ => true

/-- Text inserted for a parsed field value (a string stays itself; other
shapes approximate the JavaScript string coercion and are unreachable for
replies produced by `delegate`). -/
def jsToDisplay : Json → List Char
  | .str s => s
  | .num raw => raw
  | .bool true => "true".toList
  | .bool false => "false".toList
  | .null => "null".toList
  | .arr _ => []
  | .obj _ => "[object Object]".toList

/-- Audience/priority annotations of an output segment. -/
structure SegAnnotations where
  audience : List (List Char)
  priority : Nat
deriving DecidableEq

/-- One text segment of a tool-call result. -/
structure Segment where
  type : List Char
  text : List Char
  annotations : Option SegAnnotations
deriving DecidableEq

/-- A tool-call result; `isError` is false where the source leaves the
field undefined. -/
structure CallToolResult where
  content : List Segment
  isError : Bool
deriving DecidableEq

/-- Arguments of one `tools/call` request. -/
structure ToolArgs where
  mode : Option (List Char)
  input : Option (List Char)
  context : Option (List Char)
  maxTokens : Option Int

/-- The single agent+user segment wrapping an unstructured reply. -/
def singleSegment (result : List Char) : Segment :=
  ⟨"text".toList, result, some ⟨["assistant".toList, "user".toList], 1⟩⟩

/-- Success-path content shaping of `toolsCallHandler`
(`src/handlers/mcp-handlers.ts`): try `JSON.parse` on the delegate reply;
when it yields an object with truthy `thinking` and `content` fields,
emit a reasoning segment (agent-only) and an answer segment; otherwise a
single agent+user segment.  Returns the segments and `hasThinking`. -/
def shapeSuccess (result : List Char) : List Segment × Bool :=
  match jsonParse result with
  | some (.obj fields) =>
    match jsonFieldLast fields "thinking".toList,
        jsonFieldLast fields "content".toList with
    | some tj, some cj =>
      if jsTruthy tj && jsTruthy cj then
        ([⟨"text".toList, jsToDisplay tj, some ⟨["assistant".toList], 0⟩⟩,
          ⟨"text".toList, jsToDisplay cj,
            some ⟨["assistant".toList, "user".toList], 1⟩⟩], true)
      else ([singleSegment result], false)
    | _, _ => ([singleSegment result], false)
  | some _ => ([singleSegment result], false)
  | none => ([singleSegment result], false)

/-- `true`/`false` as printed into the metadata template. -/
def boolDisplay (b : Bool) : List Char :=
  if b then "true".toList else "false".toList

/-- The trailing agent-only metadata text of a successful call. -/
def metadataText (providerKind model mode : List Char) (durationMs : Nat)
    (hasThinking : Bool) (timestamp : List Char) : List Char :=
  "[Metadata] Provider: ".toList ++ providerKind ++ ", Model: ".toList ++ model ++
    ", Mode: ".toList ++ mode ++ ", Duration: ".toList ++
    Nat.toDigits 10 durationMs ++ "ms, Thinking extracted: ".toList ++
    boolDisplay hasThinking ++ ", Timestamp: ".toList ++ timestamp ++
    ("\n\n⚠️ REMINDER: The external expert model that generated this response " ++
     "had NO access to your context, files, or conversation history. It only saw " ++
     "what you passed in the \x27input\x27 and \x27context\x27 parameters.").toList

/-- `JSON.stringify` display of a possibly-missing string argument. -/
def jsonShowOptStr : Option (List Char) → List Char
  | none => "undefined".toList
  | some s => jsonQuote s

/-- `toolsCallHandler` of `src/handlers/mcp-handlers.ts`: the pre-checks
(unknown tool, malformed arguments, missing mode/input) throw — modelled
as `Except.error`, an exception propagating to the framework; the
delegate outcome (every configuration, validation, provider, network or
timeout failure surfaces there as `Except.error`) is wrapped in a
try/catch whose catch returns a single error-flagged text segment.
Console logging is a side effect without influence on the result and is
not modelled. -/
def toolsCallHandler (name : List Char) (args : Option ToolArgs)
    (delegateOutcome : Except (List Char) (List Char))
    (providerKind model : List Char) (durationMs : Nat) (timestamp : List Char) :
    Except (List Char) CallToolResult :=
  if ¬ name = "delegate".toList then
    .error ("Unknown tool: ".toList ++ name)
  else
    match args with
    | none => .error "Invalid arguments: undefined".toList
    | some a =>
      if (a.mode.getD []).isEmpty ∨ (a.input.getD []).isEmpty then
        .error ("mode and input are required. Received: mode=".toList ++
          jsonShowOptStr a.mode ++ ", input=".toList ++ jsonShowOptStr a.input)
      else
        match delegateOutcome with
        | .error msg =>
          .ok ⟨[⟨"text".toList, "Error: ".toList ++ msg, none⟩], true⟩
        | .ok result =>
          let shaped := shapeSuccess result
          .ok ⟨shaped.1 ++ [⟨"text".toList,
            metadataText providerKind model (a.mode.getD []) durationMs shaped.2
              timestamp,
            some ⟨["assistant".toList], 0⟩⟩], false⟩

/-- C8: every failure surfaced by `delegate` is converted by the handler
into a returned (not thrown) result whose content is exactly one text
segment `Error: <message>` with the error flag set and no metadata
segment appended. -/
theorem toolsCallHandler_error_shape (a : ToolArgs)
    (msg providerKind model : List Char) (durationMs : Nat) (timestamp : List Char)
    (hm : a.mode.getD [] ≠ []) (hi : a.input.getD [] ≠ []) :
    toolsCallHandler "delegate".toList (some a) (.error msg) providerKind model
        durationMs timestamp =
      .ok ⟨[⟨"text".toList, "Error: ".toList ++ msg, none⟩], true⟩ := by
  unfold toolsCallHandler
  rw [if_neg (by simp)]
  simp only []
  rw [if_neg ?hcond]
  case hcond =>
    intro hc
    rcases hc with h1 | h2
    · exact hm (List.isEmpty_iff.mp h1)
    · exact hi (List.isEmpty_iff.mp h2)

/-- Witness for C8 at a concrete failing call. -/
theorem toolsCallHandler_error_shape_witness :
    toolsCallHandler "delegate".toList
        (some ⟨some "plan".toList, some "hi".toList, none, none⟩)
        (.error "Input must be a non-empty string".toList)
        "ollama".toList "m".toList 5 "t".toList =
      .ok ⟨[⟨"text".toList,
        "Error: Input must be a non-empty string".toList, none⟩], true⟩ := by
  exact toolsCallHandler_error_shape _ _ _ _ _ _ (by decide) (by decide)
